import Mathlib

/-!
Verification of the include-dependency resolver and build-script synthesizer
of `makegen.py` (areong/MakefileGenerator).

The Python source is shallowly embedded:
* `CodeFile` mutable state (`hasFoundAllDependentFiles`, `dependentFiles`)
  becomes a `FileState` record, and the whole object graph becomes a
  `State := String → FileState` keyed by `path + filename` (the key of the
  Python dict `codeFilesByFilename`, which is in bijection with the
  `CodeFile` objects it stores).
* File contents are a function `String → List String` (lines of each file).
* `CodeFile.findDependentFiles` is embedded with an explicit fuel parameter
  bounding recursion depth; Python's unbounded recursion corresponds to the
  fuel-exhaustion error being reached for every fuel.
* A `KeyError` raised by `codeFilesByFilename[pathAndFilename]` is an
  explicit `Err.keyError` value; the Python program has no handler for it,
  so it aborts the run, just as the `Except` error propagates here.
-/

namespace MakeGen

/-! ### Python string primitives, embedded over `List Char`

`str.split(c)`, `str.strip()`, `str.startswith(p)`, slicing `s[8:]` and
`str.upper()` are embedded as character-list functions so that all
evaluation is by kernel reduction. -/

/-- Python `s.split(c)` for a single-character separator:
splits on every occurrence, keeping empty pieces (`"".split('.') == ['']`). -/
def pySplit (c : Char) : List Char → List (List Char)
  | [] => [[]]
  | x :: xs =>
    if x = c then [] :: pySplit c xs
    else
      match pySplit c xs with
      | [] => [[x]]
      | h :: t => (x :: h) :: t

theorem pySplit_ne_nil (c : Char) : ∀ l : List Char, pySplit c l ≠ []
  | [] => by simp [pySplit]
  | x :: xs => by
    simp only [pySplit]
    split
    · simp
    · split
      · simp
      · simp

/-- Python `s.strip()`: remove whitespace from both ends. -/
def pyStrip (l : List Char) : List Char :=
  ((l.dropWhile Char.isWhitespace).reverse.dropWhile Char.isWhitespace).reverse

/-- Python `s.upper()` (ASCII as used here). -/
def pyUpper (s : String) : String :=
  String.mk (s.toList.map Char.toUpper)

/-- `self.basename = filename.split('.')[0]` from `CodeFile.__init__`. -/
def basenameOf (filename : String) : String :=
  String.mk ((pySplit '.' filename.toList).headD [])

/-! ### The resolver state -/

/-- The mutable per-`CodeFile` state set up in `CodeFile.__init__`:
`self.hasFoundAllDependentFiles = False`, `self.dependentFiles = set()`.
Dependent files are identified by their key `path + filename`. -/
@[ext]
structure FileState where
  hasFoundAllDependentFiles : Bool
  dependentFiles : Finset String
deriving DecidableEq

/-- The state of all `CodeFile` objects, addressed by key `path + filename`. -/
def State := String → FileState

/-- All files start unresolved with an empty dependency set. -/
def initState : State := fun _ => ⟨false, ∅⟩

def updState (st : State) (f : String) (v : FileState) : State :=
  fun g => if g = f then v else st g

/-- `self.dependentFiles.clear()` on file `f`. -/
def clearDeps (st : State) (f : String) : State :=
  updState st f ⟨(st f).hasFoundAllDependentFiles, ∅⟩

/-- `self.dependentFiles.add(g)` on file `f`. -/
def addDep (st : State) (f g : String) : State :=
  updState st f ⟨(st f).hasFoundAllDependentFiles, insert g (st f).dependentFiles⟩

/-- `self.dependentFiles.update(s)` on file `f`. -/
def unionDeps (st : State) (f : String) (s : Finset String) : State :=
  updState st f ⟨(st f).hasFoundAllDependentFiles, (st f).dependentFiles ∪ s⟩

/-- `self.hasFoundAllDependentFiles = True` on file `f`. -/
def markResolved (st : State) (f : String) : State :=
  updState st f ⟨true, (st f).dependentFiles⟩

/-- A project: the keys of `codeFilesByFilename` and the text (lines) of each
file, as read by `open(self.root + self.path + self.filename)`. -/
structure Project where
  files : List String
  text : String → List String

/-- One iteration of the line loop in `findDependentFiles`:
```
if line.startswith('#include'):
    if line[8:].find("\"") >= 0:
        pathAndFilename = line[8:].strip().split("\"")[1]
```
Returns the extracted `pathAndFilename` if the line yields one. -/
def extractInclude (line : String) : Option String :=
  if "#include".toList.isPrefixOf line.toList then
    if '\"' ∈ line.toList.drop 8 then
      some (String.mk ((pySplit '\"' (pyStrip (line.toList.drop 8))).getD 1 []))
    else none
  else none

/-- The quoted include paths extracted from a file's lines, in line order. -/
def parseIncludes (lines : List String) : List String :=
  lines.filterMap extractInclude

/-- Run-aborting events: a `KeyError` from `codeFilesByFilename[p]`, or
exhaustion of the recursion budget (Python: unbounded recursion). -/
inductive Err where
  | keyError (k : String)
  | fuelExhausted
deriving DecidableEq

/-- `includedFiles.append(codeFilesByFilename[pathAndFilename])` for each
extracted include, in order; raises `KeyError` at the first missing key. -/
def lookupIncludes (keys : List String) : List String → Except Err (List String)
  | [] => .ok []
  | i :: rest =>
    if i ∈ keys then
      match lookupIncludes keys rest with
      | .ok r => .ok (i :: r)
      | .error e => .error e
    else .error (.keyError i)

/-- The loop
```
for file in includedFiles:
    self.dependentFiles.add(file)
    self.dependentFiles.update(file.findDependentFiles(codeFilesByFilename))
```
parametrized by the recursive resolver. -/
def resolveList (resolve : String → State → Except Err (Finset String × State))
    (f : String) : List String → State → Except Err State
  | [], st => .ok st
  | g :: rest, st =>
    match resolve g (addDep st f g) with
    | .error e => .error e
    | .ok (d, st2) => resolveList resolve f rest (unionDeps st2 f d)

/-- `CodeFile.findDependentFiles`, with fuel bounding the recursion depth.

```
def findDependentFiles(self, codeFilesByFilename):
    if self.hasFoundAllDependentFiles:
        return self.dependentFiles
    includedFiles = []
    openedFile = open(self.root + self.path + self.filename)
    for line in openedFile:
        if line.startswith('#include'):
            if line[8:].find("\"") >= 0:
                pathAndFilename = line[8:].strip().split("\"")[1]
                includedFiles.append(codeFilesByFilename[pathAndFilename])
    self.dependentFiles.clear()
    for file in includedFiles:
        self.dependentFiles.add(file)
        self.dependentFiles.update(file.findDependentFiles(codeFilesByFilename))
    self.hasFoundAllDependentFiles = True
    return self.dependentFiles
```
-/
def findDependentFiles (proj : Project) : Nat → String → State →
    Except Err (Finset String × State)
  | 0, _, _ => .error .fuelExhausted
  | n + 1, f, st =>
    if (st f).hasFoundAllDependentFiles then
      .ok ((st f).dependentFiles, st)
    else
      match lookupIncludes proj.files (parseIncludes (proj.text f)) with
      | .error e => .error e
      | .ok includedFiles =>
        match resolveList (fun g st2 => findDependentFiles proj n g st2) f
            includedFiles (clearDeps st f) with
        | .error e => .error e
        | .ok st1 =>
          .ok (((markResolved st1 f) f).dependentFiles, markResolved st1 f)

/-- The driver loop in `main`:
```
for file in codeFiles:
    dependentFiles = file.findDependentFiles(codeFilesByFilename)
```
-/
def resolveAll (fuel : Nat) (proj : Project) : List String → State → Except Err State
  | [], st => .ok st
  | f :: rest, st =>
    match findDependentFiles proj fuel f st with
    | .error e => .error e
    | .ok (_, st1) => resolveAll fuel proj rest st1

/-- The dependency set of `f` after running the driver loop from the initial
state, or `none` if the run aborts. -/
def depsAfter (fuel : Nat) (proj : Project) (order : List String) (f : String) :
    Option (Finset String) :=
  match resolveAll fuel proj order initState with
  | .ok st => some ((st f).dependentFiles)
  | .error _ => none

/-! ### Basic state lemmas -/

theorem updState_self (st : State) (f : String) (v : FileState) :
    updState st f v f = v := by
  simp [updState]

theorem updState_ne (st : State) (f : String) (v : FileState) {g : String}
    (h : g ≠ f) : updState st f v g = st g := by
  simp [updState, h]

theorem clearDeps_self (st : State) (f : String) :
    clearDeps st f f = ⟨(st f).hasFoundAllDependentFiles, ∅⟩ :=
  updState_self ..

theorem clearDeps_ne (st : State) (f : String) {g : String} (h : g ≠ f) :
    clearDeps st f g = st g :=
  updState_ne _ _ _ h

theorem addDep_self (st : State) (f g : String) :
    addDep st f g f = ⟨(st f).hasFoundAllDependentFiles, insert g (st f).dependentFiles⟩ :=
  updState_self ..

theorem addDep_ne (st : State) (f g : String) {x : String} (h : x ≠ f) :
    addDep st f g x = st x :=
  updState_ne _ _ _ h

theorem unionDeps_self (st : State) (f : String) (s : Finset String) :
    unionDeps st f s f = ⟨(st f).hasFoundAllDependentFiles, (st f).dependentFiles ∪ s⟩ :=
  updState_self ..

theorem unionDeps_ne (st : State) (f : String) (s : Finset String) {x : String}
    (h : x ≠ f) : unionDeps st f s x = st x :=
  updState_ne _ _ _ h

theorem markResolved_self (st : State) (f : String) :
    markResolved st f f = ⟨true, (st f).dependentFiles⟩ :=
  updState_self ..

theorem markResolved_ne (st : State) (f : String) {x : String} (h : x ≠ f) :
    markResolved st f x = st x :=
  updState_ne _ _ _ h

/-- The flag of any file is unchanged by `clearDeps`. -/
theorem flag_clearDeps (st : State) (f x : String) :
    (clearDeps st f x).hasFoundAllDependentFiles = (st x).hasFoundAllDependentFiles := by
  by_cases h : x = f
  · subst h; rw [clearDeps_self]
  · rw [clearDeps_ne _ _ h]

/-- The flag of any file is unchanged by `addDep`. -/
theorem flag_addDep (st : State) (f g x : String) :
    (addDep st f g x).hasFoundAllDependentFiles = (st x).hasFoundAllDependentFiles := by
  by_cases h : x = f
  · subst h; rw [addDep_self]
  · rw [addDep_ne _ _ _ h]

/-- The flag of any file is unchanged by `unionDeps`. -/
theorem flag_unionDeps (st : State) (f : String) (s : Finset String) (x : String) :
    (unionDeps st f s x).hasFoundAllDependentFiles = (st x).hasFoundAllDependentFiles := by
  by_cases h : x = f
  · subst h; rw [unionDeps_self]
  · rw [unionDeps_ne _ _ _ h]

/-- Adding an already-present dependency is a no-op on the whole state. -/
theorem addDep_eq_self {st : State} {f g : String}
    (h : g ∈ (st f).dependentFiles) : addDep st f g = st := by
  funext x
  by_cases hx : x = f
  · subst hx
    rw [addDep_self]
    ext1
    · rfl
    · exact Finset.insert_eq_self.mpr h
  · exact addDep_ne _ _ _ hx

/-- Unioning a subset of the present dependencies is a no-op on the whole state. -/
theorem unionDeps_eq_self {st : State} {f : String} {s : Finset String}
    (h : s ⊆ (st f).dependentFiles) : unionDeps st f s = st := by
  funext x
  by_cases hx : x = f
  · subst hx
    rw [unionDeps_self]
    ext1
    · rfl
    · exact Finset.union_eq_left.mpr h
  · exact unionDeps_ne _ _ _ hx

/-- Marking an already-resolved file is a no-op on the whole state. -/
theorem markResolved_eq_self {st : State} {f : String}
    (h : (st f).hasFoundAllDependentFiles = true) : markResolved st f = st := by
  funext x
  by_cases hx : x = f
  · subst hx
    rw [markResolved_self]
    ext1
    · exact h.symm
    · rfl
  · exact markResolved_ne _ _ hx

/-! ### Lookup lemmas -/

theorem lookupIncludes_ok_iff {keys l res : List String} :
    lookupIncludes keys l = .ok res ↔ res = l ∧ ∀ s ∈ l, s ∈ keys := by
  induction l generalizing res with
  | nil =>
    simp only [lookupIncludes]
    constructor
    · intro h
      cases h
      simp
    · rintro ⟨rfl, -⟩
      rfl
  | cons i rest ih =>
    simp only [lookupIncludes]
    by_cases hi : i ∈ keys
    · rw [if_pos hi]
      cases hrec : lookupIncludes keys rest with
      | ok r =>
        obtain ⟨rfl, hall⟩ := ih.mp hrec
        constructor
        · intro h
          cases h
          exact ⟨rfl, by simpa [hi] using hall⟩
        · rintro ⟨rfl, -⟩
          rfl
      | error e =>
        constructor
        · intro h
          cases h
        · rintro ⟨rfl, hall⟩
          have : lookupIncludes keys rest = .ok rest :=
            ih.mpr ⟨rfl, fun s hs => hall s (by simp [hs])⟩
          rw [this] at hrec
          cases hrec
    · rw [if_neg hi]
      constructor
      · intro h
        cases h
      · rintro ⟨rfl, hall⟩
        exact absurd (hall i (by simp)) hi

theorem lookupIncludes_error {keys l : List String} {e : Err}
    (h : lookupIncludes keys l = .error e) :
    ∃ k, e = .keyError k ∧ k ∈ l ∧ k ∉ keys := by
  induction l with
  | nil => simp only [lookupIncludes] at h; cases h
  | cons i rest ih =>
    simp only [lookupIncludes] at h
    by_cases hi : i ∈ keys
    · rw [if_pos hi] at h
      cases hrec : lookupIncludes keys rest with
      | ok r => rw [hrec] at h; cases h
      | error e2 =>
        rw [hrec] at h
        cases h
        obtain ⟨k, hk, hmem, hnot⟩ := ih hrec
        exact ⟨k, hk, by simp [hmem], hnot⟩
    · rw [if_neg hi] at h
      cases h
      exact ⟨i, rfl, by simp, hi⟩

/-! ### Stability and monotonicity of resolution

`resolveList` lemmas are stated for an abstract resolver `R` (instantiated
with `findDependentFiles proj n`), so that each `findDependentFiles` lemma
is a clean induction on fuel. -/

section Stability

variable (R : String → State → Except Err (Finset String × State))

/-- If the resolver never changes an already-resolved file, neither does the
include loop, at any file other than the one being resolved. -/
theorem resolveList_stable
    (hR : ∀ g st d st1, R g st = .ok (d, st1) →
      ∀ x, (st x).hasFoundAllDependentFiles = true → st1 x = st x) :
    ∀ (incs : List String) (f : String) (st st1 : State),
      resolveList R f incs st = .ok st1 →
      ∀ x, x ≠ f → (st x).hasFoundAllDependentFiles = true → st1 x = st x := by
  intro incs
  induction incs with
  | nil =>
    intro f st st1 h x hxf hx
    simp only [resolveList] at h
    cases h
    rfl
  | cons g rest ih =>
    intro f st st1 h x hxf hx
    simp only [resolveList] at h
    cases hg : R g (addDep st f g) with
    | error e => rw [hg] at h; cases h
    | ok p =>
      obtain ⟨d, st2⟩ := p
      rw [hg] at h
      have ha : addDep st f g x = st x := addDep_ne _ _ _ hxf
      have h2 : st2 x = st x := by
        rw [hR g _ d st2 hg x (by rw [ha]; exact hx), ha]
      have hc : unionDeps st2 f d x = st x := by
        rw [unionDeps_ne _ _ _ hxf, h2]
      have := ih f (unionDeps st2 f d) st1 h x hxf (by rw [hc]; exact hx)
      rw [this, hc]

/-- The include loop never unsets a resolved flag. -/
theorem resolveList_flagMono
    (hR : ∀ g st d st1, R g st = .ok (d, st1) →
      ∀ x, (st x).hasFoundAllDependentFiles = true → st1 x = st x) :
    ∀ (incs : List String) (f : String) (st st1 : State),
      resolveList R f incs st = .ok st1 →
      ∀ x, (st x).hasFoundAllDependentFiles = true →
        (st1 x).hasFoundAllDependentFiles = true := by
  intro incs
  induction incs with
  | nil =>
    intro f st st1 h x hx
    simp only [resolveList] at h
    cases h
    exact hx
  | cons g rest ih =>
    intro f st st1 h x hx
    simp only [resolveList] at h
    cases hg : R g (addDep st f g) with
    | error e => rw [hg] at h; cases h
    | ok p =>
      obtain ⟨d, st2⟩ := p
      rw [hg] at h
      have ha : (addDep st f g x).hasFoundAllDependentFiles = true := by
        rw [flag_addDep]; exact hx
      have h2 : st2 x = addDep st f g x := hR g _ d st2 hg x ha
      refine ih f (unionDeps st2 f d) st1 h x ?_
      rw [flag_unionDeps, h2]
      exact ha

/-- Any file the include loop changes (other than the one being resolved)
ends up resolved. -/
theorem resolveList_touch
    (hRs : ∀ g st d st1, R g st = .ok (d, st1) →
      ∀ x, (st x).hasFoundAllDependentFiles = true → st1 x = st x)
    (hRt : ∀ g st d st1, R g st = .ok (d, st1) →
      ∀ x, st1 x = st x ∨ (st1 x).hasFoundAllDependentFiles = true) :
    ∀ (incs : List String) (f : String) (st st1 : State),
      resolveList R f incs st = .ok st1 →
      ∀ x, x ≠ f →
        (st1 x = st x ∨ (st1 x).hasFoundAllDependentFiles = true) := by
  intro incs
  induction incs with
  | nil =>
    intro f st st1 h x hxf
    simp only [resolveList] at h
    cases h
    exact Or.inl rfl
  | cons g rest ih =>
    intro f st st1 h x hxf
    simp only [resolveList] at h
    cases hg : R g (addDep st f g) with
    | error e => rw [hg] at h; cases h
    | ok p =>
      obtain ⟨d, st2⟩ := p
      rw [hg] at h
      have ha : addDep st f g x = st x := addDep_ne _ _ _ hxf
      rcases hRt g _ d st2 hg x with h2 | h2
      · have hc : unionDeps st2 f d x = st x := by
          rw [unionDeps_ne _ _ _ hxf, h2, ha]
        rcases ih f (unionDeps st2 f d) st1 h x hxf with h3 | h3
        · exact Or.inl (by rw [h3, hc])
        · exact Or.inr h3
      · refine Or.inr ?_
        refine resolveList_flagMono R hRs rest f (unionDeps st2 f d) st1 h x ?_
        rw [flag_unionDeps]
        exact h2

/-- Through the include loop, the dependency set of the file being resolved
only grows, unless that file ends up resolved. -/
theorem resolveList_grow
    (hRs : ∀ g st d st1, R g st = .ok (d, st1) →
      ∀ x, (st x).hasFoundAllDependentFiles = true → st1 x = st x)
    (hRt : ∀ g st d st1, R g st = .ok (d, st1) →
      ∀ x, st1 x = st x ∨ (st1 x).hasFoundAllDependentFiles = true) :
    ∀ (incs : List String) (f : String) (st st1 : State),
      resolveList R f incs st = .ok st1 →
      ((st f).dependentFiles ⊆ (st1 f).dependentFiles ∨
        (st1 f).hasFoundAllDependentFiles = true) := by
  intro incs
  induction incs with
  | nil =>
    intro f st st1 h
    simp only [resolveList] at h
    cases h
    exact Or.inl le_rfl
  | cons g rest ih =>
    intro f st st1 h
    simp only [resolveList] at h
    cases hg : R g (addDep st f g) with
    | error e => rw [hg] at h; cases h
    | ok p =>
      obtain ⟨d, st2⟩ := p
      rw [hg] at h
      rcases hRt g _ d st2 hg f with h2 | h2
      · have hsub : (st f).dependentFiles ⊆ (unionDeps st2 f d f).dependentFiles := by
          rw [unionDeps_self, h2, addDep_self]
          exact fun x hx =>
            Finset.mem_union_left _ (Finset.mem_insert_of_mem hx)
        rcases ih f (unionDeps st2 f d) st1 h with h3 | h3
        · exact Or.inl (hsub.trans h3)
        · exact Or.inr h3
      · refine Or.inr ?_
        refine resolveList_flagMono R hRs rest f (unionDeps st2 f d) st1 h f ?_
        rw [flag_unionDeps]
        exact h2

end Stability

/-- `findDependentFiles` never changes the state of an already-resolved file:
once resolved, a file's flag and dependency set are immutable. -/
theorem findDependentFiles_stable (proj : Project) :
    ∀ (n : Nat) (f : String) (st : State) (d : Finset String) (st1 : State),
      findDependentFiles proj n f st = .ok (d, st1) →
      ∀ x, (st x).hasFoundAllDependentFiles = true → st1 x = st x := by
  intro n
  induction n with
  | zero =>
    intro f st d st1 h
    simp only [findDependentFiles] at h
    cases h
  | succ n ih =>
    intro f st d st1 h x hx
    simp only [findDependentFiles] at h
    by_cases hres : (st f).hasFoundAllDependentFiles = true
    · rw [if_pos hres] at h
      cases h
      rfl
    · rw [if_neg hres] at h
      have hxf : x ≠ f := fun hxf => hres (hxf ▸ hx)
      cases hlk : lookupIncludes proj.files (parseIncludes (proj.text f)) with
      | error e => simp only [hlk] at h; cases h
      | ok incs =>
        simp only [hlk] at h
        cases hloop : resolveList (fun g st2 => findDependentFiles proj n g st2) f
            incs (clearDeps st f) with
        | error e => simp only [hloop] at h; cases h
        | ok stL =>
          simp only [hloop] at h
          cases h
          have h0 : clearDeps st f x = st x := clearDeps_ne _ _ hxf
          have h1 : stL x = st x := by
            rw [resolveList_stable _ (fun g st d st1 ho => ih g st d st1 ho)
              incs f (clearDeps st f) stL hloop x hxf (by rw [h0]; exact hx), h0]
          rw [markResolved_ne _ _ hxf, h1]

/-- Any file `findDependentFiles` changes ends up resolved. -/
theorem findDependentFiles_touch (proj : Project) :
    ∀ (n : Nat) (f : String) (st : State) (d : Finset String) (st1 : State),
      findDependentFiles proj n f st = .ok (d, st1) →
      ∀ x, st1 x = st x ∨ (st1 x).hasFoundAllDependentFiles = true := by
  intro n
  induction n with
  | zero =>
    intro f st d st1 h
    simp only [findDependentFiles] at h
    cases h
  | succ n ih =>
    intro f st d st1 h x
    simp only [findDependentFiles] at h
    by_cases hres : (st f).hasFoundAllDependentFiles = true
    · rw [if_pos hres] at h
      cases h
      exact Or.inl rfl
    · rw [if_neg hres] at h
      cases hlk : lookupIncludes proj.files (parseIncludes (proj.text f)) with
      | error e => simp only [hlk] at h; cases h
      | ok incs =>
        simp only [hlk] at h
        cases hloop : resolveList (fun g st2 => findDependentFiles proj n g st2) f
            incs (clearDeps st f) with
        | error e => simp only [hloop] at h; cases h
        | ok stL =>
          simp only [hloop] at h
          cases h
          by_cases hxf : x = f
          · subst hxf
            exact Or.inr (by rw [markResolved_self])
          · have h0 : clearDeps st f x = st x := clearDeps_ne _ _ hxf
            rcases resolveList_touch _ (fun g st d st1 ho =>
                findDependentFiles_stable proj n g st d st1 ho)
                (fun g st d st1 ho => ih g st d st1 ho)
                incs f (clearDeps st f) stL hloop x hxf with h1 | h1
            · exact Or.inl (by rw [markResolved_ne _ _ hxf, h1, h0])
            · exact Or.inr (by rw [markResolved_ne _ _ hxf]; exact h1)

/-! ### The resolution invariant

`TInv` says: every resolved file has all its extracted includes present in
the lookup table, and each such include is itself resolved, is a member of
the file's dependency set, and contributes its whole dependency set. -/

def TInv (proj : Project) (st : State) : Prop :=
  ∀ f, (st f).hasFoundAllDependentFiles = true →
    (∀ s ∈ parseIncludes (proj.text f), s ∈ proj.files) ∧
    ∀ g ∈ parseIncludes (proj.text f),
      (st g).hasFoundAllDependentFiles = true ∧
      g ∈ (st f).dependentFiles ∧
      (st g).dependentFiles ⊆ (st f).dependentFiles

theorem TInv_initState (proj : Project) : TInv proj initState := by
  intro f hf
  cases hf

/-- Changing only the dependency set of an unresolved file preserves `TInv`. -/
theorem TInv_update_unres {proj : Project} {st st2 : State} {f : String}
    (hT : TInv proj st)
    (hf : ¬ (st f).hasFoundAllDependentFiles = true)
    (hother : ∀ x, x ≠ f → st2 x = st x)
    (hflag : (st2 f).hasFoundAllDependentFiles = (st f).hasFoundAllDependentFiles) :
    TInv proj st2 := by
  intro f2 hf2
  have hf2f : f2 ≠ f := by
    intro h
    subst h
    rw [hflag] at hf2
    exact hf hf2
  rw [hother f2 hf2f] at hf2 ⊢
  obtain ⟨hfiles, hg⟩ := hT f2 hf2
  refine ⟨hfiles, fun g hgmem => ?_⟩
  obtain ⟨hgres, hgdep, hgsub⟩ := hg g hgmem
  have hgf : g ≠ f := by
    intro h
    subst h
    exact hf hgres
  rw [hother g hgf]
  exact ⟨hgres, hgdep, hgsub⟩

/-- The include loop preserves `TInv`, and on success every processed include
is resolved, recorded in the dependency set of the file being resolved, and
contributes its whole dependency set. -/
theorem resolveList_TInv (proj : Project)
    (R : String → State → Except Err (Finset String × State))
    (hRs : ∀ g st d st1, R g st = .ok (d, st1) →
      ∀ x, (st x).hasFoundAllDependentFiles = true → st1 x = st x)
    (hRt : ∀ g st d st1, R g st = .ok (d, st1) →
      ∀ x, st1 x = st x ∨ (st1 x).hasFoundAllDependentFiles = true)
    (hRm : ∀ g st d st1, TInv proj st → R g st = .ok (d, st1) →
      TInv proj st1 ∧ (st1 g).hasFoundAllDependentFiles = true ∧
        d = (st1 g).dependentFiles) :
    ∀ (incs : List String) (f : String) (st st1 : State),
      TInv proj st →
      (∀ g ∈ incs, g ∈ parseIncludes (proj.text f)) →
      resolveList R f incs st = .ok st1 →
      TInv proj st1 ∧ ∀ g ∈ incs,
        (st1 g).hasFoundAllDependentFiles = true ∧
        g ∈ (st1 f).dependentFiles ∧
        (st1 g).dependentFiles ⊆ (st1 f).dependentFiles := by
  intro incs
  induction incs with
  | nil =>
    intro f st st1 hT hsub h
    simp only [resolveList] at h
    cases h
    exact ⟨hT, by simp⟩
  | cons g rest ih =>
    intro f st st1 hT hsub h
    simp only [resolveList] at h
    cases hg : R g (addDep st f g) with
    | error e => rw [hg] at h; cases h
    | ok p =>
      obtain ⟨d, st2⟩ := p
      rw [hg] at h
      have hgparse : g ∈ parseIncludes (proj.text f) := hsub g (by simp)
      -- TInv for the state after `addDep`
      have hTa : TInv proj (addDep st f g) := by
        by_cases hf : (st f).hasFoundAllDependentFiles = true
        · have hgin : g ∈ (st f).dependentFiles := ((hT f hf).2 g hgparse).2.1
          rw [addDep_eq_self hgin]
          exact hT
        · exact TInv_update_unres hT hf (fun x hx => addDep_ne _ _ _ hx)
            (flag_addDep _ _ _ _)
      obtain ⟨hT2, hres2, hd⟩ := hRm g _ d st2 hTa hg
      -- TInv for the state after `unionDeps`
      have hTc : TInv proj (unionDeps st2 f d) := by
        by_cases hf2 : (st2 f).hasFoundAllDependentFiles = true
        · have hgsub : (st2 g).dependentFiles ⊆ (st2 f).dependentFiles :=
            ((hT2 f hf2).2 g hgparse).2.2
          rw [unionDeps_eq_self (hd ▸ hgsub)]
          exact hT2
        · exact TInv_update_unres hT2 hf2 (fun x hx => unionDeps_ne _ _ _ hx)
            (flag_unionDeps _ _ _ _)
      obtain ⟨hT1, hpost⟩ := ih f (unionDeps st2 f d) st1 hTc
        (fun x hx => hsub x (by simp [hx])) h
      refine ⟨hT1, fun x hx => ?_⟩
      rcases List.mem_cons.mp hx with rfl | hxrest
      · -- the head include `g`
        -- facts at the state after `unionDeps`
        have hcres : ((unionDeps st2 f d) x).hasFoundAllDependentFiles = true := by
          rw [flag_unionDeps]
          exact hres2
        have hcdep : x ∈ ((unionDeps st2 f d) f).dependentFiles := by
          rw [unionDeps_self]
          rcases hRt x _ d st2 hg f with h2 | h2
          · refine Finset.mem_union_left _ ?_
            rw [h2, addDep_self]
            exact Finset.mem_insert_self _ _
          · exact Finset.mem_union_left _ ((hT2 f h2).2 x hgparse).2.1
        by_cases hgf : x = f
        · subst hgf
          have hres1 : (st1 x).hasFoundAllDependentFiles = true :=
            resolveList_flagMono R hRs rest x _ st1 h x hcres
          exact ⟨hres1, ((hT1 x hres1).2 x hgparse).2.1, le_rfl⟩
        · have hfrozen : st1 x = (unionDeps st2 f d) x :=
            resolveList_stable R hRs rest f _ st1 h x hgf hcres
          have hres1 : (st1 x).hasFoundAllDependentFiles = true := by
            rw [hfrozen]
            exact hcres
          have hcsub : (st1 x).dependentFiles ⊆ ((unionDeps st2 f d) f).dependentFiles := by
            rw [hfrozen, unionDeps_ne _ _ _ hgf, hd, unionDeps_self]
            exact Finset.subset_union_right
          rcases resolveList_grow R hRs hRt rest f _ st1 h with h3 | h3
          · exact ⟨hres1, h3 hcdep, hcsub.trans h3⟩
          · obtain ⟨-, hdep, hsub1⟩ := (hT1 f h3).2 x hgparse
            exact ⟨hres1, hdep, hfrozen ▸ hsub1⟩
      · exact hpost x hxrest

/-- `findDependentFiles` preserves the resolution invariant; on success the
resolved file is flagged and the returned set is its dependency set. -/
theorem findDependentFiles_TInv (proj : Project) :
    ∀ (n : Nat) (f : String) (st : State) (d : Finset String) (st1 : State),
      TInv proj st →
      findDependentFiles proj n f st = .ok (d, st1) →
      TInv proj st1 ∧ (st1 f).hasFoundAllDependentFiles = true ∧
        d = (st1 f).dependentFiles := by
  intro n
  induction n with
  | zero =>
    intro f st d st1 hT h
    simp only [findDependentFiles] at h
    cases h
  | succ n ih =>
    intro f st d st1 hT h
    simp only [findDependentFiles] at h
    by_cases hres : (st f).hasFoundAllDependentFiles = true
    · rw [if_pos hres] at h
      cases h
      exact ⟨hT, hres, rfl⟩
    · rw [if_neg hres] at h
      cases hlk : lookupIncludes proj.files (parseIncludes (proj.text f)) with
      | error e => simp only [hlk] at h; cases h
      | ok incs =>
        simp only [hlk] at h
        obtain ⟨rfl, hfiles⟩ := lookupIncludes_ok_iff.mp hlk
        cases hloop : resolveList (fun g st2 => findDependentFiles proj n g st2) f
            (parseIncludes (proj.text f)) (clearDeps st f) with
        | error e => simp only [hloop] at h; cases h
        | ok stL =>
          simp only [hloop] at h
          cases h
          have hT0 : TInv proj (clearDeps st f) :=
            TInv_update_unres hT hres (fun x hx => clearDeps_ne _ _ hx)
              (flag_clearDeps _ _ _)
          obtain ⟨hT1, hpost⟩ := resolveList_TInv proj _
            (fun g st d st1 ho => findDependentFiles_stable proj n g st d st1 ho)
            (fun g st d st1 ho => findDependentFiles_touch proj n g st d st1 ho)
            (fun g st d st1 hTx ho => ih g st d st1 hTx ho)
            (parseIncludes (proj.text f)) f (clearDeps st f) stL hT0
            (fun g hg => hg) hloop
          by_cases hf1 : (stL f).hasFoundAllDependentFiles = true
          · rw [markResolved_eq_self hf1]
            exact ⟨hT1, hf1, rfl⟩
          · refine ⟨?_, by rw [markResolved_self], by rw [markResolved_self]⟩
            intro f2 hf2
            by_cases hff : f2 = f
            · subst hff
              refine ⟨hfiles, fun g hgmem => ?_⟩
              obtain ⟨hgres, hgdep, hgsub⟩ := hpost g hgmem
              have hgf : g ≠ f2 := by
                intro hgf
                subst hgf
                exact hf1 hgres
              rw [markResolved_ne _ _ hgf, markResolved_self]
              exact ⟨hgres, hgdep, hgsub⟩
            · rw [markResolved_ne _ _ hff] at hf2 ⊢
              obtain ⟨hfiles2, hg⟩ := hT1 f2 hf2
              refine ⟨hfiles2, fun g hgmem => ?_⟩
              obtain ⟨hgres, hgdep, hgsub⟩ := hg g hgmem
              by_cases hgf : g = f
              · subst hgf
                rw [markResolved_self]
                exact ⟨rfl, hgdep, hgsub⟩
              · rw [markResolved_ne _ _ hgf]
                exact ⟨hgres, hgdep, hgsub⟩

/-! ### Reachability bound

Every recorded dependency is reachable in the quoted-include graph. -/

/-- The quoted-include edge relation: `y` is extracted from `x`'s text. -/
def Edge (proj : Project) (x y : String) : Prop :=
  y ∈ parseIncludes (proj.text x)

/-- Upper bound invariant: every member of any dependency set is reachable
from its owner through at least one include edge. -/
def BInv (proj : Project) (st : State) : Prop :=
  ∀ f x, x ∈ (st f).dependentFiles → Relation.TransGen (Edge proj) f x

theorem BInv_initState (proj : Project) : BInv proj initState := by
  intro f x hx
  simp [initState] at hx

theorem resolveList_BInv (proj : Project)
    (R : String → State → Except Err (Finset String × State))
    (hRb : ∀ g st d st1, BInv proj st → R g st = .ok (d, st1) →
      BInv proj st1 ∧ ∀ x ∈ d, Relation.TransGen (Edge proj) g x) :
    ∀ (incs : List String) (f : String) (st st1 : State),
      BInv proj st →
      (∀ g ∈ incs, Edge proj f g) →
      resolveList R f incs st = .ok st1 →
      BInv proj st1 := by
  intro incs
  induction incs with
  | nil =>
    intro f st st1 hB hsub h
    simp only [resolveList] at h
    cases h
    exact hB
  | cons g rest ih =>
    intro f st st1 hB hsub h
    simp only [resolveList] at h
    cases hg : R g (addDep st f g) with
    | error e => rw [hg] at h; cases h
    | ok p =>
      obtain ⟨d, st2⟩ := p
      rw [hg] at h
      have hBa : BInv proj (addDep st f g) := by
        intro f2 x hx
        by_cases hf2 : f2 = f
        · subst hf2
          rw [addDep_self] at hx
          rcases Finset.mem_insert.mp hx with rfl | hx2
          · exact Relation.TransGen.single (hsub x (by simp))
          · exact hB f2 x hx2
        · rw [addDep_ne _ _ _ hf2] at hx
          exact hB f2 x hx
      obtain ⟨hB2, hbound⟩ := hRb g _ d st2 hBa hg
      have hBc : BInv proj (unionDeps st2 f d) := by
        intro f2 x hx
        by_cases hf2 : f2 = f
        · subst hf2
          rw [unionDeps_self] at hx
          rcases Finset.mem_union.mp hx with hx2 | hx2
          · exact hB2 f2 x hx2
          · exact Relation.TransGen.head (hsub g (by simp)) (hbound x hx2)
        · rw [unionDeps_ne _ _ _ hf2] at hx
          exact hB2 f2 x hx
      exact ih f (unionDeps st2 f d) st1 hBc (fun x hx => hsub x (by simp [hx])) h

theorem findDependentFiles_BInv (proj : Project) :
    ∀ (n : Nat) (f : String) (st : State) (d : Finset String) (st1 : State),
      BInv proj st →
      findDependentFiles proj n f st = .ok (d, st1) →
      BInv proj st1 ∧ ∀ x ∈ d, Relation.TransGen (Edge proj) f x := by
  intro n
  induction n with
  | zero =>
    intro f st d st1 hB h
    simp only [findDependentFiles] at h
    cases h
  | succ n ih =>
    intro f st d st1 hB h
    simp only [findDependentFiles] at h
    by_cases hres : (st f).hasFoundAllDependentFiles = true
    · rw [if_pos hres] at h
      cases h
      exact ⟨hB, fun x hx => hB f x hx⟩
    · rw [if_neg hres] at h
      cases hlk : lookupIncludes proj.files (parseIncludes (proj.text f)) with
      | error e => simp only [hlk] at h; cases h
      | ok incs =>
        simp only [hlk] at h
        obtain ⟨rfl, -⟩ := lookupIncludes_ok_iff.mp hlk
        cases hloop : resolveList (fun g st2 => findDependentFiles proj n g st2) f
            (parseIncludes (proj.text f)) (clearDeps st f) with
        | error e => simp only [hloop] at h; cases h
        | ok stL =>
          simp only [hloop] at h
          cases h
          have hB0 : BInv proj (clearDeps st f) := by
            intro f2 x hx
            by_cases hf2 : f2 = f
            · subst hf2
              rw [clearDeps_self] at hx
              simp at hx
            · rw [clearDeps_ne _ _ hf2] at hx
              exact hB f2 x hx
          have hB1 : BInv proj stL := resolveList_BInv proj _
            (fun g st d st1 hBx ho => ih g st d st1 hBx ho)
            (parseIncludes (proj.text f)) f (clearDeps st f) stL hB0
            (fun g hg => hg) hloop
          have hBmark : BInv proj (markResolved stL f) := by
            intro f2 x hx
            by_cases hf2 : f2 = f
            · subst hf2
              rw [markResolved_self] at hx
              exact hB1 f2 x hx
            · rw [markResolved_ne _ _ hf2] at hx
              exact hB1 f2 x hx
          refine ⟨hBmark, fun x hx => ?_⟩
          rw [markResolved_self] at hx
          exact hB1 f x hx

/-! ### The driver loop -/

theorem resolveAll_stable (fuel : Nat) (proj : Project) :
    ∀ (order : List String) (st st1 : State),
      resolveAll fuel proj order st = .ok st1 →
      ∀ x, (st x).hasFoundAllDependentFiles = true → st1 x = st x := by
  intro order
  induction order with
  | nil =>
    intro st st1 h x hx
    simp only [resolveAll] at h
    cases h
    rfl
  | cons f rest ih =>
    intro st st1 h x hx
    simp only [resolveAll] at h
    cases hf : findDependentFiles proj fuel f st with
    | error e => rw [hf] at h; cases h
    | ok p =>
      obtain ⟨d, stm⟩ := p
      rw [hf] at h
      have h1 : stm x = st x := findDependentFiles_stable proj fuel f st d stm hf x hx
      rw [ih stm st1 h x (by rw [h1]; exact hx), h1]

theorem resolveAll_TInv (fuel : Nat) (proj : Project) :
    ∀ (order : List String) (st st1 : State),
      TInv proj st →
      resolveAll fuel proj order st = .ok st1 →
      TInv proj st1 ∧ ∀ f ∈ order, (st1 f).hasFoundAllDependentFiles = true := by
  intro order
  induction order with
  | nil =>
    intro st st1 hT h
    simp only [resolveAll] at h
    cases h
    exact ⟨hT, by simp⟩
  | cons f rest ih =>
    intro st st1 hT h
    simp only [resolveAll] at h
    cases hf : findDependentFiles proj fuel f st with
    | error e => rw [hf] at h; cases h
    | ok p =>
      obtain ⟨d, stm⟩ := p
      rw [hf] at h
      obtain ⟨hTm, hresm, -⟩ := findDependentFiles_TInv proj fuel f st d stm hT hf
      obtain ⟨hT1, hrest⟩ := ih stm st1 hTm h
      refine ⟨hT1, fun x hx => ?_⟩
      rcases List.mem_cons.mp hx with rfl | hxrest
      · rw [resolveAll_stable fuel proj rest stm st1 h x hresm]
        exact hresm
      · exact hrest x hxrest

theorem resolveAll_BInv (fuel : Nat) (proj : Project) :
    ∀ (order : List String) (st st1 : State),
      BInv proj st →
      resolveAll fuel proj order st = .ok st1 →
      BInv proj st1 := by
  intro order
  induction order with
  | nil =>
    intro st st1 hB h
    simp only [resolveAll] at h
    cases h
    exact hB
  | cons f rest ih =>
    intro st st1 hB h
    simp only [resolveAll] at h
    cases hf : findDependentFiles proj fuel f st with
    | error e => rw [hf] at h; cases h
    | ok p =>
      obtain ⟨d, stm⟩ := p
      rw [hf] at h
      exact ih stm st1 (findDependentFiles_BInv proj fuel f st d stm hB hf).1 h

/-! ### Characterization of resolved dependency sets -/

/-- Lower bound: in a `TInv` state, the dependency set of a resolved file
contains everything reachable from it in the include graph. -/
theorem mem_deps_of_transGen {proj : Project} {st : State}
    (hT : TInv proj st) {f x : String}
    (h : Relation.TransGen (Edge proj) f x) :
    (st f).hasFoundAllDependentFiles = true → x ∈ (st f).dependentFiles := by
  induction h using Relation.TransGen.head_induction_on with
  | base hedge =>
    intro hres
    exact ((hT _ hres).2 x hedge).2.1
  | ih hedge htail htc =>
    intro hres
    obtain ⟨hcres, -, hcsub⟩ := (hT _ hres).2 _ hedge
    exact hcsub (htc hcres)

/-- In any state reached by a successful run, a resolved file's dependency
set is exactly the set of files reachable from it along include edges. -/
theorem deps_characterization {proj : Project} {st : State}
    (hT : TInv proj st) (hB : BInv proj st) {f : String}
    (hres : (st f).hasFoundAllDependentFiles = true) (x : String) :
    x ∈ (st f).dependentFiles ↔ Relation.TransGen (Edge proj) f x :=
  ⟨fun hx => hB f x hx, fun hx => mem_deps_of_transGen hT hx hres⟩

/-! ### Concrete projects used as claim inputs -/

/-- A small acyclic project: `a.cpp` includes `b.h`, which includes `c.h`. -/
def projW : Project where
  files := ["a.cpp", "b.h", "c.h"]
  text := fun f =>
    if f = "a.cpp" then ["#include \"b.h\"", "int main()"]
    else if f = "b.h" then ["#include \"c.h\""]
    else []

/-- A project whose single file quotes an include that is not in the table. -/
def projC1 : Project where
  files := ["main.cpp"]
  text := fun f => if f = "main.cpp" then ["#include \"missing.h\""] else []

/-- A mutual-include cycle: `a.h` includes `b.h` and `b.h` includes `a.h`. -/
def projCyc : Project where
  files := ["a.h", "b.h"]
  text := fun f =>
    if f = "a.h" then ["#include \"b.h\""]
    else if f = "b.h" then ["#include \"a.h\""]
    else []

/-- Unfolding step of `findDependentFiles` for an unresolved file whose
includes all resolve in the table. -/
theorem findDependentFiles_step (proj : Project) (f : String) (st : State)
    (n : Nat) (incs : List String)
    (hres : (st f).hasFoundAllDependentFiles = false)
    (hlk : lookupIncludes proj.files (parseIncludes (proj.text f)) = .ok incs) :
    findDependentFiles proj (n + 1) f st =
      match resolveList (fun g st2 => findDependentFiles proj n g st2) f incs
          (clearDeps st f) with
      | .error e => .error e
      | .ok st1 =>
        .ok (((markResolved st1 f) f).dependentFiles, markResolved st1 f) := by
  simp [findDependentFiles, hres, hlk]

/-! ### Claim C1 -/

/-- C1, counterexample: resolving a file with a quoted include whose path is
not a key of the lookup table DOES fail, with a `KeyError` carrying the
missing path; the include is not silently skipped. -/
theorem claim_C1_counterexample :
    findDependentFiles projC1 2 "main.cpp" initState =
      .error (.keyError "missing.h") := rfl

/-- C1, amended: for every file `f` that is not yet resolved and whose
extracted includes contain a path missing from the lookup table,
`findDependentFiles` fails with the `KeyError` raised at the first missing
path (rather than skipping it), aborting resolution. -/
theorem claim_C1_amended (proj : Project) (f : String) (st : State) (n : Nat)
    (e : Err)
    (hres : (st f).hasFoundAllDependentFiles = false)
    (hlk : lookupIncludes proj.files (parseIncludes (proj.text f)) = .error e) :
    findDependentFiles proj (n + 1) f st = .error e ∧
      ∃ k, e = .keyError k ∧ k ∈ parseIncludes (proj.text f) ∧ k ∉ proj.files := by
  constructor
  · simp [findDependentFiles, hres, hlk]
  · exact lookupIncludes_error hlk

theorem claim_C1_amended_witness :
    (initState "main.cpp").hasFoundAllDependentFiles = false ∧
    lookupIncludes projC1.files (parseIncludes (projC1.text "main.cpp")) =
      .error (.keyError "missing.h") ∧
    findDependentFiles projC1 3 "main.cpp" initState =
      .error (.keyError "missing.h") :=
  ⟨rfl, rfl,
    (claim_C1_amended projC1 "main.cpp" initState 2 (.keyError "missing.h")
      rfl rfl).1⟩

/-! ### Claim C2 -/

/-- On the mutual cycle, resolution of either file from any state in which
both are unresolved exhausts every recursion budget. -/
theorem projCyc_no_fuel_suffices : ∀ (n : Nat) (st : State),
    (st "a.h").hasFoundAllDependentFiles = false →
    (st "b.h").hasFoundAllDependentFiles = false →
    findDependentFiles projCyc n "a.h" st = .error .fuelExhausted ∧
    findDependentFiles projCyc n "b.h" st = .error .fuelExhausted := by
  intro n
  induction n with
  | zero => intro st ha hb; exact ⟨rfl, rfl⟩
  | succ n ih =>
    intro st ha hb
    constructor
    · rw [findDependentFiles_step projCyc "a.h" st n ["b.h"] ha rfl]
      have hrec : findDependentFiles projCyc n "b.h"
          (addDep (clearDeps st "a.h") "a.h" "b.h") = .error .fuelExhausted := by
        refine (ih _ ?_ ?_).2
        · rw [flag_addDep, flag_clearDeps]; exact ha
        · rw [flag_addDep, flag_clearDeps]; exact hb
      simp [resolveList, hrec]
    · rw [findDependentFiles_step projCyc "b.h" st n ["a.h"] hb rfl]
      have hrec : findDependentFiles projCyc n "a.h"
          (addDep (clearDeps st "b.h") "b.h" "a.h") = .error .fuelExhausted := by
        refine (ih _ ?_ ?_).1
        · rw [flag_addDep, flag_clearDeps]; exact ha
        · rw [flag_addDep, flag_clearDeps]; exact hb
      simp [resolveList, hrec]

/-- C2: on the quoted-include cycle `a.h ↔ b.h`, `findDependentFiles` does
NOT terminate with a dependency set: there is no in-progress guard in the
code, so the mutual recursion exhausts every recursion budget (in Python,
unbounded recursion). -/
theorem claim_C2 (n : Nat) :
    findDependentFiles projCyc n "a.h" initState = .error .fuelExhausted ∧
    findDependentFiles projCyc n "b.h" initState = .error .fuelExhausted :=
  projCyc_no_fuel_suffices n initState rfl rfl

/-! ### Claim C3 -/

/-- C3: transitivity of resolution. If a full driver run succeeds and `A`
was resolved in it, `A` directly includes `B` and `B` directly includes `C`
(both resolvable in the table), then both `B` and `C` are members of `A`'s
final dependency set. -/
theorem claim_C3 (fuel : Nat) (proj : Project) (order : List String)
    (A B C : String) (dA : Finset String)
    (hA : A ∈ order)
    (hrun : depsAfter fuel proj order A = some dA)
    (hB : B ∈ parseIncludes (proj.text A)) (hBt : B ∈ proj.files)
    (hC : C ∈ parseIncludes (proj.text B)) (hCt : C ∈ proj.files) :
    B ∈ dA ∧ C ∈ dA := by
  unfold depsAfter at hrun
  cases hall : resolveAll fuel proj order initState with
  | error e => rw [hall] at hrun; cases hrun
  | ok st =>
    rw [hall] at hrun
    injection hrun with hd
    subst hd
    obtain ⟨hT, hres⟩ :=
      resolveAll_TInv fuel proj order initState st (TInv_initState proj) hall
    have hresA := hres A hA
    obtain ⟨hresB, hBdep, hBsub⟩ := (hT A hresA).2 B hB
    obtain ⟨-, hCdep, -⟩ := (hT B hresB).2 C hC
    exact ⟨hBdep, hBsub hCdep⟩

theorem claim_C3_witness :
    ("a.cpp" ∈ ["a.cpp", "b.h", "c.h"] ∧
      depsAfter 10 projW ["a.cpp", "b.h", "c.h"] "a.cpp" = some {"b.h", "c.h"} ∧
      "b.h" ∈ parseIncludes (projW.text "a.cpp") ∧
      "c.h" ∈ parseIncludes (projW.text "b.h")) ∧
    "b.h" ∈ ({"b.h", "c.h"} : Finset String) ∧
    "c.h" ∈ ({"b.h", "c.h"} : Finset String) :=
  ⟨⟨by decide, by decide, by decide, by decide⟩,
    claim_C3 10 projW ["a.cpp", "b.h", "c.h"] "a.cpp" "b.h" "c.h"
      {"b.h", "c.h"} (by decide) (by decide) (by decide) (by decide)
      (by decide) (by decide)⟩

/-! ### Claim C4 -/

/-- C4: once a file is resolved (flag set), a repeat call returns the cached
set and leaves the entire state unchanged (no re-reading, no recomputation),
and no later resolution call — on any file, with any fuel — nor any driver
run ever changes that file's state again. -/
theorem claim_C4 (proj : Project) (f : String) (st : State) (n : Nat)
    (h : (st f).hasFoundAllDependentFiles = true) :
    findDependentFiles proj (n + 1) f st = .ok ((st f).dependentFiles, st) ∧
    (∀ (g : String) (m : Nat) (d : Finset String) (st1 : State),
      findDependentFiles proj m g st = .ok (d, st1) → st1 f = st f) ∧
    (∀ (fuel : Nat) (order : List String) (st1 : State),
      resolveAll fuel proj order st = .ok st1 → st1 f = st f) := by
  refine ⟨?_, ?_, ?_⟩
  · simp [findDependentFiles, h]
  · exact fun g m d st1 ho => findDependentFiles_stable proj m g st d st1 ho f h
  · exact fun fuel order st1 ho => resolveAll_stable fuel proj order st st1 ho f h

/-- A state in which `c.h` is already resolved with an empty dependency set. -/
def stC4 : State := updState initState "c.h" ⟨true, ∅⟩

theorem claim_C4_witness :
    (stC4 "c.h").hasFoundAllDependentFiles = true ∧
    findDependentFiles projW 3 "c.h" stC4 = .ok ((stC4 "c.h").dependentFiles, stC4) :=
  ⟨rfl, (claim_C4 projW "c.h" stC4 2 rfl).1⟩

/-! ### Claim C5 -/

/-- C5: order independence. If the driver loop is run over two permutations
of the file list and both runs complete, every file resolved in them ends up
with the same final dependency set. -/
theorem claim_C5 (fuel1 fuel2 : Nat) (proj : Project)
    (order1 order2 : List String) (f : String) (d1 d2 : Finset String)
    (hperm : List.Perm order1 order2)
    (hf : f ∈ order1)
    (h1 : depsAfter fuel1 proj order1 f = some d1)
    (h2 : depsAfter fuel2 proj order2 f = some d2) :
    d1 = d2 := by
  unfold depsAfter at h1 h2
  cases hall1 : resolveAll fuel1 proj order1 initState with
  | error e => rw [hall1] at h1; cases h1
  | ok st1 =>
    rw [hall1] at h1
    injection h1 with hd1
    subst hd1
    cases hall2 : resolveAll fuel2 proj order2 initState with
    | error e => rw [hall2] at h2; cases h2
    | ok st2 =>
      rw [hall2] at h2
      injection h2 with hd2
      subst hd2
      obtain ⟨hT1, hres1⟩ :=
        resolveAll_TInv fuel1 proj order1 initState st1 (TInv_initState proj) hall1
      obtain ⟨hT2, hres2⟩ :=
        resolveAll_TInv fuel2 proj order2 initState st2 (TInv_initState proj) hall2
      have hB1 := resolveAll_BInv fuel1 proj order1 initState st1
        (BInv_initState proj) hall1
      have hB2 := resolveAll_BInv fuel2 proj order2 initState st2
        (BInv_initState proj) hall2
      ext x
      rw [deps_characterization hT1 hB1 (hres1 f hf) x,
        deps_characterization hT2 hB2 (hres2 f (hperm.mem_iff.mp hf)) x]

theorem claim_C5_witness :
    (List.Perm ["a.cpp", "b.h", "c.h"] ["c.h", "b.h", "a.cpp"] ∧
      "a.cpp" ∈ ["a.cpp", "b.h", "c.h"] ∧
      depsAfter 12 projW ["a.cpp", "b.h", "c.h"] "a.cpp" = some {"b.h", "c.h"} ∧
      depsAfter 11 projW ["c.h", "b.h", "a.cpp"] "a.cpp" = some {"b.h", "c.h"}) ∧
    ({"b.h", "c.h"} : Finset String) = {"b.h", "c.h"} :=
  ⟨⟨by decide, by decide, by decide, by decide⟩,
    claim_C5 12 11 projW ["a.cpp", "b.h", "c.h"] ["c.h", "b.h", "a.cpp"]
      "a.cpp" {"b.h", "c.h"} {"b.h", "c.h"} (by decide) (by decide)
      (by decide) (by decide)⟩

/-! ### Claim C10 -/

/-- C10: in an acyclic include graph (no include cycle through `f`), a file
is never a member of its own fully resolved dependency set. -/
theorem claim_C10 (fuel : Nat) (proj : Project) (order : List String)
    (f : String) (d : Finset String)
    (hrun : depsAfter fuel proj order f = some d)
    (hacyc : ¬ Relation.TransGen (Edge proj) f f) :
    f ∉ d := by
  unfold depsAfter at hrun
  cases hall : resolveAll fuel proj order initState with
  | error e => rw [hall] at hrun; cases hrun
  | ok st =>
    rw [hall] at hrun
    injection hrun with hd
    subst hd
    have hB := resolveAll_BInv fuel proj order initState st
      (BInv_initState proj) hall
    exact fun hf => hacyc (hB f f hf)

/-- The include graph of `projW` has no cycle through `a.cpp`. -/
theorem projW_acyclic : ¬ Relation.TransGen (Edge projW) "a.cpp" "a.cpp" := by
  intro h
  have hreach : ∀ y, Relation.TransGen (Edge projW) "a.cpp" y →
      (y = "b.h" ∨ y = "c.h") := by
    intro y hy
    induction hy with
    | single hedge =>
      have he : parseIncludes (projW.text "a.cpp") = ["b.h"] := rfl
      rw [Edge, he] at hedge
      simp at hedge
      exact Or.inl hedge
    | tail hseg hedge ih =>
      rcases ih with rfl | rfl
      · have he : parseIncludes (projW.text "b.h") = ["c.h"] := rfl
        rw [Edge, he] at hedge
        simp at hedge
        exact Or.inr hedge
      · have he : parseIncludes (projW.text "c.h") = [] := rfl
        rw [Edge, he] at hedge
        simp at hedge
  rcases hreach "a.cpp" h with h1 | h1 <;> simp at h1

theorem claim_C10_witness :
    depsAfter 13 projW ["a.cpp", "b.h", "c.h"] "a.cpp" = some {"b.h", "c.h"} ∧
    "a.cpp" ∉ ({"b.h", "c.h"} : Finset String) :=
  ⟨by decide,
    claim_C10 13 projW ["a.cpp", "b.h", "c.h"] "a.cpp" {"b.h", "c.h"}
      (by decide) projW_acyclic⟩

/-! ### Build-script synthesis (`Package` / `RootPackage`)

A compilable unit carries the data `Package.generateMakefile` reads from a
`CodeFile`: its `path`, its `filename`, and its resolved dependency set
(each dependent file identified by its key `path + filename`; printing
concatenates `dependentFile.path + dependentFile.filename`, which is that
key, and sorts by `getSortingKey`, which is also that key).

Python's `list.sort(key=...)` and `sorted(..., key=...)` order by the
string comparison of the keys; that comparison is embedded as an
executable lexicographic order on the underlying character lists
(`lexLE`/`strLE` below), proved total, transitive and antisymmetric, and
the sorts are embedded as (stable) insertion sorts by that order. -/

/-- Lexicographic comparison of character lists by code point — Python's
string comparison. -/
def lexLE : List Char → List Char → Bool
  | [], _ => true
  | _ :: _, [] => false
  | a :: as, b :: bs =>
    if a.toNat < b.toNat then true
    else if b.toNat < a.toNat then false
    else lexLE as bs

/-- Python's `a <= b` on strings. -/
def strLE (a b : String) : Prop := lexLE a.data b.data = true

instance : DecidableRel strLE := fun a b =>
  inferInstanceAs (Decidable (lexLE a.data b.data = true))

theorem lexLE_total : ∀ a b : List Char, lexLE a b = true ∨ lexLE b a = true
  | [], _ => Or.inl rfl
  | _ :: _, [] => Or.inr rfl
  | a :: as, b :: bs => by
    simp only [lexLE]
    rcases Nat.lt_trichotomy a.toNat b.toNat with h | h | h
    · left
      simp [h]
    · have h2 : ¬ a.toNat < b.toNat := by omega
      have h3 : ¬ b.toNat < a.toNat := by omega
      rcases lexLE_total as bs with h4 | h4
      · left
        simp [h2, h3, h4]
      · right
        simp [h2, h3, h4]
    · right
      simp [h]

theorem lexLE_trans : ∀ a b c : List Char,
    lexLE a b = true → lexLE b c = true → lexLE a c = true
  | [], _, _, _, _ => rfl
  | _ :: _, [], _, h1, _ => by simp [lexLE] at h1
  | _ :: _, _ :: _, [], _, h2 => by simp [lexLE] at h2
  | a :: as, b :: bs, c :: cs, h1, h2 => by
    simp only [lexLE] at h1 h2 ⊢
    rcases Nat.lt_trichotomy a.toNat b.toNat with hab | hab | hab
    · rcases Nat.lt_trichotomy b.toNat c.toNat with hbc | hbc | hbc
      · simp [show a.toNat < c.toNat by omega]
      · simp [show a.toNat < c.toNat by omega]
      · simp [show ¬ b.toNat < c.toNat by omega, hbc] at h2
    · rcases Nat.lt_trichotomy b.toNat c.toNat with hbc | hbc | hbc
      · simp [show a.toNat < c.toNat by omega]
      · have hac1 : ¬ a.toNat < c.toNat := by omega
        have hac2 : ¬ c.toNat < a.toNat := by omega
        simp only [show ¬ a.toNat < b.toNat by omega,
          show ¬ b.toNat < a.toNat by omega, if_false, if_neg] at h1
        simp only [show ¬ b.toNat < c.toNat by omega,
          show ¬ c.toNat < b.toNat by omega, if_false, if_neg] at h2
        simp [hac1, hac2, lexLE_trans as bs cs h1 h2]
      · simp [show ¬ b.toNat < c.toNat by omega, hbc] at h2
    · simp [show ¬ a.toNat < b.toNat by omega, hab] at h1

theorem lexLE_antisymm : ∀ a b : List Char,
    lexLE a b = true → lexLE b a = true → a = b
  | [], [], _, _ => rfl
  | [], _ :: _, _, h2 => by simp [lexLE] at h2
  | _ :: _, [], h1, _ => by simp [lexLE] at h1
  | a :: as, b :: bs, h1, h2 => by
    rcases Nat.lt_trichotomy a.toNat b.toNat with hab | hab | hab
    · simp [lexLE, show ¬ b.toNat < a.toNat by omega, hab] at h2
    · have hchar : a = b := by
        rw [← Char.ofNat_toNat a, ← Char.ofNat_toNat b, hab]
      simp only [lexLE, show ¬ a.toNat < b.toNat by omega,
        show ¬ b.toNat < a.toNat by omega, if_false, if_neg] at h1 h2
      rw [hchar, lexLE_antisymm as bs h1 h2]
    · simp [lexLE, show ¬ a.toNat < b.toNat by omega, hab] at h1

theorem strLE_total (a b : String) : strLE a b ∨ strLE b a :=
  lexLE_total a.data b.data

theorem strLE_trans {a b c : String} (h1 : strLE a b) (h2 : strLE b c) :
    strLE a c :=
  lexLE_trans a.data b.data c.data h1 h2

theorem strLE_antisymm {a b : String} (h1 : strLE a b) (h2 : strLE b a) :
    a = b := by
  cases a with
  | mk da =>
    cases b with
    | mk db =>
      rw [lexLE_antisymm da db h1 h2]

instance : IsTotal String strLE := ⟨strLE_total⟩
instance : IsTrans String strLE := ⟨fun _ _ _ => strLE_trans⟩
instance : IsAntisymm String strLE := ⟨fun _ _ => strLE_antisymm⟩

structure CFile where
  path : String
  filename : String
  dependentFiles : Finset String
deriving DecidableEq

/-- `CodeFile.getSortingKey`: `self.path + self.filename`. -/
def getSortingKey (cf : CFile) : String := cf.path ++ cf.filename

/-- `CodeFile.basename` of a unit. -/
def basenameCF (cf : CFile) : String := basenameOf cf.filename

/-- The order used by `self.cppFiles.sort(key=getSortingKey)`. -/
def keyLE (a b : CFile) : Prop := strLE (getSortingKey a) (getSortingKey b)

instance : DecidableRel keyLE := fun a b =>
  inferInstanceAs (Decidable (strLE (getSortingKey a) (getSortingKey b)))

instance : IsTotal CFile keyLE := ⟨fun a b => strLE_total _ _⟩
instance : IsTrans CFile keyLE := ⟨fun _ _ _ => strLE_trans⟩

/-- `Package.__init__`: `self.pathToRoot = './'` followed by one `'../'`
per `'/'` in the package path. -/
def pathToRootOf (path : String) : String :=
  "./" ++ String.join (List.replicate (path.toList.count '/') "../")

/-- A `Package`: its directory path (empty for the root directory) and its
compilable units, in discovery order. -/
structure Pkg where
  path : String
  cppFiles : List CFile

/-- `self.cppFiles.sort(key=lambda codeFile: codeFile.getSortingKey())`,
the first statement of `Package.generateMakefile` (a stable sort by key). -/
def sortedCppFiles (p : Pkg) : List CFile := List.insertionSort keyLE p.cppFiles

/-- Sorting the elements of a multiset of keys. -/
def sortMultiset (m : Multiset String) : List String :=
  Quot.liftOn m (fun l => List.insertionSort strLE l)
    (fun l1 l2 h => List.eq_of_perm_of_sorted
      (((List.perm_insertionSort strLE l1).trans h).trans
        (List.perm_insertionSort strLE l2).symm)
      (List.sorted_insertionSort strLE l1)
      (List.sorted_insertionSort strLE l2))

/-- `sorted(codeFile.dependentFiles, key=...)`: the dependent files of one
unit in ascending key order (the sorting key of a dependent file is exactly
its key `path + filename`). -/
def sortDeps (s : Finset String) : List String := sortMultiset s.val

theorem sorted_sortMultiset (m : Multiset String) :
    List.Sorted strLE (sortMultiset m) :=
  Quot.inductionOn m fun l => List.sorted_insertionSort strLE l

theorem sorted_sortDeps (s : Finset String) : List.Sorted strLE (sortDeps s) :=
  sorted_sortMultiset s.val

/-- `'HEADERS_' + codeFile.basename.upper()`. -/
def headerVariableName (cf : CFile) : String :=
  "HEADERS_" ++ pyUpper (basenameCF cf)

/-- One header-list variable of `Package.printVariables`. -/
def varLineStr (ptr : String) (cf : CFile) : String :=
  headerVariableName cf ++ " = " ++
    String.join ((sortDeps cf.dependentFiles).map
      (fun k => "\\\n\t" ++ ptr ++ k)) ++ "\n\n"

/-- `Package.printVariables`. -/
def printVariablesStr (ptr : String) (units : List CFile) : String :=
  "INC = -I " ++ ptr ++ "\n" ++ String.join (units.map (varLineStr ptr))

/-- `Package.printTargetAll`. -/
def printTargetAllStr (units : List CFile) : String :=
  "all:\n" ++
    String.join (units.map (fun cf => "\tmake " ++ basenameCF cf ++ ".o\n"))

/-- One rule of `Package.printTargetObjectFiles`. -/
def objectRuleStr (cf : CFile) : String :=
  basenameCF cf ++ ".o: " ++ basenameCF cf ++ ".cpp " ++
    "$(HEADERS_" ++ pyUpper (basenameCF cf) ++ ")\n" ++
    "\t$(CXX) $(CPPFLAGS) $(CXXFLAGS) -c " ++ basenameCF cf ++ ".cpp $(INC)\n"

/-- `Package.printTargetObjectFiles`. -/
def printTargetObjectFilesStr (units : List CFile) : String :=
  String.join (units.map objectRuleStr)

/-- `Package.printTargetClean`. -/
def printTargetCleanStr : String := "clean: \n\trm *.o\n"

/-- The script text assembled by `Package.generateMakefile` for a non-root
package (`printTargetExecutable` contributes nothing). -/
def generateMakefileContent (p : Pkg) : String :=
  printVariablesStr (pathToRootOf p.path) (sortedCppFiles p) ++
    printTargetAllStr (sortedCppFiles p) ++
    printTargetObjectFilesStr (sortedCppFiles p) ++
    printTargetCleanStr

/-- A `RootPackage`: additionally the (unique) directory paths of all
packages, the executable name and the link libraries. -/
structure RootPkg where
  path : String
  cppFiles : List CFile
  allPackagePaths : List String
  executableName : String
  libs : List String

/-- `RootPackage.setAllPackages`: `sorted(allPackages, key=path)`, with
packages identified by their (unique) directory paths. -/
def setAllPackages (paths : List String) : List String :=
  List.insertionSort strLE paths

/-- The loop of `RootPackage.printTargetAll` over `self.allPackages`,
skipping the root package itself (`if package == self: continue`). -/
def rootAllLoopLines : List String → String → String
  | [], _ => ""
  | p :: rest, selfPath =>
    if p = selfPath then rootAllLoopLines rest selfPath
    else "\tcd " ++ p ++ "; make all\n" ++ rootAllLoopLines rest selfPath

/-- `RootPackage.printTargetAll`. -/
def rootPrintTargetAll (r : RootPkg) (units : List CFile) : String :=
  "all:\n" ++ rootAllLoopLines r.allPackagePaths r.path ++
    String.join (units.map (fun cf => "\tmake " ++ basenameCF cf ++ ".o\n")) ++
    "\tmake " ++ r.executableName ++ "\n"

/-! ### Sorting facts -/

theorem sorted_setAllPackages (ps : List String) :
    List.Sorted strLE (setAllPackages ps) :=
  List.sorted_insertionSort strLE ps

theorem sorted_sortedCppFiles (p : Pkg) :
    (sortedCppFiles p).Pairwise keyLE :=
  List.sorted_insertionSort keyLE p.cppFiles

theorem sortedCppFiles_perm (p : Pkg) :
    List.Perm (sortedCppFiles p) p.cppFiles :=
  List.perm_insertionSort keyLE p.cppFiles

/-- Two key-sorted lists that are permutations of each other and have no
duplicate keys are equal. -/
theorem eq_of_perm_of_keySorted {l1 l2 : List CFile}
    (hperm : List.Perm l1 l2)
    (h1 : l1.Pairwise keyLE) (h2 : l2.Pairwise keyLE)
    (hnd : (l2.map getSortingKey).Nodup) : l1 = l2 := by
  haveI : IsAntisymm CFile (fun a b => keyLE a b ∧ ¬ keyLE b a) :=
    ⟨fun a b hab hba => absurd hba.1 hab.2⟩
  have hnd1 : (l1.map getSortingKey).Nodup :=
    (hperm.map getSortingKey).nodup_iff.mpr hnd
  have hne1 : l1.Pairwise (fun a b => getSortingKey a ≠ getSortingKey b) :=
    List.pairwise_map.mp hnd1
  have hne2 : l2.Pairwise (fun a b => getSortingKey a ≠ getSortingKey b) :=
    List.pairwise_map.mp hnd
  have hs1 : l1.Pairwise (fun a b => keyLE a b ∧ ¬ keyLE b a) :=
    (h1.and hne1).imp (fun hab =>
      ⟨hab.1, fun hba => hab.2 (strLE_antisymm hab.1 hba)⟩)
  have hs2 : l2.Pairwise (fun a b => keyLE a b ∧ ¬ keyLE b a) :=
    (h2.and hne2).imp (fun hab =>
      ⟨hab.1, fun hba => hab.2 (strLE_antisymm hab.1 hba)⟩)
  exact List.eq_of_perm_of_sorted hperm hs1 hs2

/-! ### Claim C6 -/

/-- C6: deterministic script generation. Units are emitted in ascending
`sortKey` order, every unit's dependency listing is in ascending `sortKey`
order, and the generated text depends only on the set of units and the
package path: permuting the stored unit list (e.g. a different discovery
order) leaves the script text byte-identical, provided no two units share a
`sortKey` (within one directory, `path + filename` is unique). -/
theorem claim_C6 (p q : Pkg)
    (hnd : (p.cppFiles.map getSortingKey).Nodup)
    (hperm : List.Perm q.cppFiles p.cppFiles)
    (hpath : q.path = p.path) :
    generateMakefileContent q = generateMakefileContent p ∧
    List.Sorted strLE ((sortedCppFiles p).map getSortingKey) ∧
    ∀ cf ∈ sortedCppFiles p, List.Sorted strLE (sortDeps cf.dependentFiles) := by
  have hsort : sortedCppFiles q = sortedCppFiles p := by
    refine eq_of_perm_of_keySorted ?_ (sorted_sortedCppFiles q)
      (sorted_sortedCppFiles p) ?_
    · exact ((sortedCppFiles_perm q).trans hperm).trans (sortedCppFiles_perm p).symm
    · exact ((sortedCppFiles_perm p).map getSortingKey).nodup_iff.mpr hnd
  refine ⟨?_, ?_, ?_⟩
  · unfold generateMakefileContent
    rw [hsort, hpath]
  · exact List.pairwise_map.mpr (sorted_sortedCppFiles p)
  · exact fun cf _ => sorted_sortDeps cf.dependentFiles

/-- A two-unit package and a copy with the units stored in the other order. -/
def pkgC6 : Pkg where
  path := ""
  cppFiles := [⟨"", "main.cpp", {"util.h"}⟩, ⟨"", "aux2.cpp", ∅⟩]

def pkgC6r : Pkg where
  path := ""
  cppFiles := [⟨"", "aux2.cpp", ∅⟩, ⟨"", "main.cpp", {"util.h"}⟩]

theorem claim_C6_witness :
    ((pkgC6.cppFiles.map getSortingKey).Nodup ∧
      List.Perm pkgC6r.cppFiles pkgC6.cppFiles ∧ pkgC6r.path = pkgC6.path) ∧
    generateMakefileContent pkgC6r = generateMakefileContent pkgC6 :=
  ⟨⟨by decide, by decide, rfl⟩,
    (claim_C6 pkgC6 pkgC6r (by decide) (by decide) rfl).1⟩

/-! ### Claim C7 -/

/-- C7, counterexample: for the filename `"a.b" + "." + "cpp"` (a stem that
itself contains a dot), the computed base name is NOT the filename without
its final extension: `filename.split('.')[0]` keeps only the text before
the FIRST dot. -/
theorem claim_C7_counterexample : basenameOf ("a.b" ++ "." ++ "cpp") ≠ "a.b" := by
  decide

theorem pySplit_append (c : Char) (t : List Char) :
    ∀ (s : List Char), c ∉ s → pySplit c (s ++ c :: t) = s :: pySplit c t
  | [], _ => by simp [pySplit]
  | x :: s, h => by
    have hxc : ¬ x = c := fun hx => h (by simp [hx])
    have hcs : c ∉ s := fun hc => h (by simp [hc])
    simp only [List.cons_append, pySplit, List.append_eq, if_neg hxc,
      pySplit_append c t s hcs]

/-- C7, amended: `baseName` is the text before the FIRST dot of the
filename; for `stem + "." + ext` it equals `stem` exactly when `stem`
itself contains no dot. -/
theorem claim_C7_amended (stem ext : String) (h : '.' ∉ stem.toList) :
    basenameOf (stem ++ "." ++ ext) = stem := by
  unfold basenameOf
  have hl : (stem ++ "." ++ ext).toList = stem.toList ++ '.' :: ext.toList := by
    show (stem ++ "." ++ ext).data = stem.data ++ '.' :: ext.data
    rw [String.data_append, String.data_append, List.append_assoc]
    rfl
  rw [hl, pySplit_append '.' ext.toList stem.toList h]
  rfl

theorem claim_C7_amended_witness :
    '.' ∉ "util".toList ∧ basenameOf ("util" ++ "." ++ "h") = "util" :=
  ⟨by decide, claim_C7_amended "util" "h" (by decide)⟩

/-! ### Claim C8 -/

theorem join_foldl_str : ∀ (l : List String) (a : String),
    List.foldl (· ++ ·) a l = a ++ List.foldl (· ++ ·) "" l
  | [], a => by simp
  | b :: l, a => by
    simp only [List.foldl_cons]
    rw [join_foldl_str l (a ++ b), join_foldl_str l ("" ++ b),
      String.empty_append, String.append_assoc]

theorem join_cons (a : String) (l : List String) :
    String.join (a :: l) = a ++ String.join l := by
  show List.foldl (· ++ ·) ("" ++ a) l = a ++ List.foldl (· ++ ·) "" l
  rw [String.empty_append]
  exact join_foldl_str l a

theorem rootAllLoopLines_eq_filter (sp : String) : ∀ l : List String,
    rootAllLoopLines l sp =
      String.join ((l.filter (fun q => q ≠ sp)).map
        (fun p => "\tcd " ++ p ++ "; make all\n"))
  | [] => rfl
  | p :: rest => by
    by_cases hp : p = sp
    · have hf : (p :: rest).filter (fun q => q ≠ sp) =
          rest.filter (fun q => q ≠ sp) := by
        simp [List.filter_cons, hp]
      rw [hf]
      show (if p = sp then rootAllLoopLines rest sp
        else "\tcd " ++ p ++ "; make all\n" ++ rootAllLoopLines rest sp) = _
      rw [if_pos hp]
      exact rootAllLoopLines_eq_filter sp rest
    · have hf : (p :: rest).filter (fun q => q ≠ sp) =
          p :: rest.filter (fun q => q ≠ sp) := by
        simp [List.filter_cons, hp]
      rw [hf]
      show (if p = sp then rootAllLoopLines rest sp
        else "\tcd " ++ p ++ "; make all\n" ++ rootAllLoopLines rest sp) = _
      rw [if_neg hp, rootAllLoopLines_eq_filter sp rest, List.map_cons, join_cons]

/-- C8: in the root package's `all` target, the recipe is exactly: one
`cd <path>; make all` line per non-root package, taken in ascending path
order with the root's own path excluded, then one `make <basename>.o` line
per own unit, then a single `make <executable>` line. -/
theorem claim_C8 (r : RootPkg) (units : List CFile) (ps : List String)
    (hset : r.allPackagePaths = setAllPackages ps) :
    rootPrintTargetAll r units =
      "all:\n" ++
        String.join (((setAllPackages ps).filter (fun q => q ≠ r.path)).map
          (fun p => "\tcd " ++ p ++ "; make all\n")) ++
        String.join (units.map (fun cf => "\tmake " ++ basenameCF cf ++ ".o\n")) ++
        "\tmake " ++ r.executableName ++ "\n" ∧
    List.Sorted strLE ((setAllPackages ps).filter (fun q => q ≠ r.path)) ∧
    r.path ∉ (setAllPackages ps).filter (fun q => q ≠ r.path) := by
  refine ⟨?_, ?_, ?_⟩
  · unfold rootPrintTargetAll
    rw [hset, rootAllLoopLines_eq_filter]
  · exact (sorted_setAllPackages ps).filter _
  · simp

/-- A two-package project: the root (path `""`) and one subdirectory. -/
def rootC8 : RootPkg where
  path := ""
  cppFiles := [⟨"", "main.cpp", ∅⟩]
  allPackagePaths := setAllPackages ["sub/", ""]
  executableName := "app"
  libs := []

theorem claim_C8_witness :
    rootC8.allPackagePaths = setAllPackages ["sub/", ""] ∧
    rootPrintTargetAll rootC8 [⟨"", "main.cpp", ∅⟩] =
      "all:\n\tcd sub/; make all\n\tmake main.o\n\tmake app\n" ∧
    rootC8.path ∉ (setAllPackages ["sub/", ""]).filter (fun q => q ≠ rootC8.path) :=
  ⟨rfl, by decide,
    (claim_C8 rootC8 [⟨"", "main.cpp", ∅⟩] ["sub/", ""] rfl).2.2⟩

/-! ### Claim C9 -/

/-- Counts (possibly overlapping) occurrences of `pat` in a character list. -/
def countOccs (pat : List Char) : List Char → Nat
  | [] => 0
  | x :: xs => (if pat.isPrefixOf (x :: xs) then 1 else 0) + countOccs pat xs

/-- Two units in the same directory whose base names collide:
`"a.cpp".split('.')[0] == "a.b.cpp".split('.')[0] == "a"`. -/
def pkgC9 : Pkg where
  path := ""
  cppFiles := [⟨"", "a.cpp", ∅⟩, ⟨"", "a.b.cpp", ∅⟩]

set_option maxRecDepth 4000

/-- C9, counterexample: generation does not surface any error for the
duplicate base name — it silently emits a complete script in which the
variable definition `HEADERS_A = ` occurs twice (the later definition
shadowing the earlier one in the generated script). -/
theorem claim_C9_counterexample :
    countOccs "HEADERS_A = ".toList (generateMakefileContent pkgC9).toList = 2 := by
  decide

/-- C9, amended: duplicate base names are not surfaced as an error: any two
units with equal base names produce the identical header-list variable
identifier, and `printVariables` emits both definitions one after the
other. -/
theorem claim_C9_amended (f1 f2 : CFile) (ptr : String)
    (h : basenameCF f1 = basenameCF f2) :
    headerVariableName f1 = headerVariableName f2 ∧
    printVariablesStr ptr [f1, f2] =
      ("INC = -I " ++ ptr ++ "\n") ++ (varLineStr ptr f1 ++ varLineStr ptr f2) := by
  constructor
  · unfold headerVariableName
    rw [h]
  · show _ ++ String.join [varLineStr ptr f1, varLineStr ptr f2] = _
    rw [join_cons, join_cons]
    rw [String.join, List.foldl_nil, String.append_empty]

theorem claim_C9_amended_witness :
    basenameCF ⟨"", "a.cpp", ∅⟩ = basenameCF ⟨"", "a.b.cpp", ∅⟩ ∧
    headerVariableName ⟨"", "a.cpp", ∅⟩ = headerVariableName ⟨"", "a.b.cpp", ∅⟩ :=
  ⟨by decide,
    (claim_C9_amended ⟨"", "a.cpp", ∅⟩ ⟨"", "a.b.cpp", ∅⟩ "./" (by decide)).1⟩

end MakeGen
